import Mathlib

/-!
Verification of the Shamir secret-sharing implementation in this repository
(src/main.cpp and src/unnamed/part_000). GMP big integers are embedded as `ℤ`,
arrays as `List ℤ`, and each C++ function as a Lean function that mirrors its
loop structure. The only modelled library calls are `mpz_invert` (modelled by
its documented contract: the unique inverse in `[0, p)` when it exists, with
the destination operand left unchanged on failure, which is what the GMP
implementation does and what the calling code, which ignores the return flag,
actually observes) and `mpz_urandomm` (modelled as reduction of an arbitrary
draw into `[0, p)`, its documented output range).
-/

namespace SSS

/-- Embedding of `compute_shares` from src/main.cpp lines 35-51: `y` starts at
`0` and the loop over `j < change` adds `coefficients[j] * x^j`. There is no
modular reduction anywhere in this function. -/
def compute_shares (x : ℤ) (coefficients : List ℤ) (change : ℕ) : ℤ :=
  (List.range change).foldl (fun y j => y + coefficients.getD j 0 * x ^ j) 0

/-- Model of the `mpz_invert(rop, a, p)` contract: when `a` is invertible
modulo `p` the result is the unique `t` with `0 ≤ t < p` and `a * t ≡ 1 (mod p)`;
otherwise no result is produced. -/
def mpz_invert (a : ℤ) (p : ℕ) : Option ℤ :=
  ((List.range p).find? (fun t : ℕ => decide ((a * (t : ℤ)) % (p : ℤ) = 1 % (p : ℤ)))).map
    (fun t : ℕ => (t : ℤ))

/-- The value left in the destination operand after `mpz_invert(temp, temp, p)`
in the source: on success the inverse, on failure the operand is unchanged
(the C++ code ignores the returned success flag entirely). -/
def invert_or_keep (a : ℤ) (p : ℕ) : ℤ :=
  (mpz_invert a p).getD a

/-- Embedding of `compute_lagrange_coefficients` from src/main.cpp lines 54-76
(textually identical in src/unnamed/part_000 lines 64-88): `alphas[i]` starts
at `1` and for every `j ≠ i` is multiplied by the destination value of
`mpz_invert` applied to `x[j] - x[i]`. No reduction of the running product is
performed. -/
def compute_lagrange_coefficients (xs : List ℤ) (k : ℕ) (p : ℕ) : List ℤ :=
  (List.range k).map (fun i =>
    (List.range k).foldl
      (fun alpha j =>
        if j ≠ i then alpha * invert_or_keep (xs.getD j 0 - xs.getD i 0) p else alpha)
      1)

/-- Embedding of `reconstruct_secret` from src/main.cpp lines 79-96: the sum of
`alphas[i] * shares[i]` over `i < k`, reduced modulo `p` at the very end
(`mpz_mod` always returns a non-negative remainder, as does `Int.emod`). -/
def reconstruct_secret (alphas : List ℤ) (shares : List ℤ) (k : ℕ) (p : ℕ) : ℤ :=
  ((List.range k).foldl (fun acc i => acc + alphas.getD i 0 * shares.getD i 0) 0) % (p : ℤ)

/-- The reconstruction path exercised by both `main` functions:
`compute_lagrange_coefficients` on the x-values followed by
`reconstruct_secret` on the resulting alphas and the y-values. -/
def reconstruct_pipeline (xs ys : List ℤ) (k : ℕ) (p : ℕ) : ℤ :=
  reconstruct_secret (compute_lagrange_coefficients xs k p) ys k p

/-- Embedding of `generate_secret` from src/main.cpp lines 17-20: a single
`mpz_urandomm` draw, modelled by reducing an arbitrary raw draw `r` of the
random stream into the documented output range `[0, p)`. -/
def generate_secret (r : ℤ) (p : ℕ) : ℤ :=
  r % (p : ℤ)

/-- Embedding of `generate_coefficients` from src/main.cpp lines 23-32 (the
polynomial builder, `change = k ≥ 1`): coefficients `0 .. k-2` are fresh
`mpz_urandomm` draws (modelled as in `generate_secret` from a stream `rs`),
and the LAST coefficient, index `k-1`, is set to the secret. -/
def generate_coefficients (rs : List ℤ) (secret : ℤ) (change : ℕ) (p : ℕ) : List ℤ :=
  (List.range (change - 1)).map (fun i => rs.getD i 0 % (p : ℤ)) ++ [secret]

/-- Embedding of the batch `compute_shares` from src/unnamed/part_000 lines
41-61: the outer loop writes `y[i]` for `i < k` only (using the same inner
polynomial evaluation loop, also bounded by `k`); entries of `y` at positions
`≥ k` are never touched. -/
def compute_shares_batch (x : List ℤ) (y : List ℤ) (coefficients : List ℤ) (k : ℕ) : List ℤ :=
  y.mapIdx (fun i yi =>
    if i < k then
      (List.range k).foldl (fun acc j => acc + coefficients.getD j 0 * (x.getD i 0) ^ j) 0
    else yi)

/-- A fold accumulating additions over `List.range` is a `Finset.range` sum. -/
lemma foldl_add_eq_sum (f : ℕ → ℤ) (k : ℕ) :
    (List.range k).foldl (fun acc j => acc + f j) 0 = ∑ j ∈ Finset.range k, f j := by
  induction k with
  | zero => simp
  | succ n ih =>
      rw [List.range_succ, List.foldl_append, Finset.sum_range_succ, ih]
      simp

/-- A fold accumulating multiplications over `List.range`, skipping index `i`,
is a product over `(Finset.range k).erase i`. -/
lemma foldl_mul_skip_eq_prod (g : ℕ → ℤ) (i k : ℕ) :
    (List.range k).foldl (fun alpha j => if j ≠ i then alpha * g j else alpha) 1
      = ∏ j ∈ (Finset.range k).erase i, g j := by
  induction k with
  | zero => simp
  | succ n ih =>
      rw [List.range_succ, List.foldl_append, ih, Finset.range_succ]
      by_cases h : n = i
      · subst h
        rw [Finset.erase_insert (Finset.not_mem_range_self)]
        simp [Finset.erase_eq_of_not_mem Finset.not_mem_range_self]
      · rw [Finset.erase_insert_of_ne h,
          Finset.prod_insert (fun hc => Finset.not_mem_range_self (Finset.mem_of_mem_erase hc))]
        simp [h, mul_comm]

/-- When `a` is a unit modulo a prime `p`, the modelled `mpz_invert` succeeds and
returns the value of the field inverse of `a` in `ZMod p`. -/
lemma mpz_invert_eq_some (p : ℕ) (hp : Nat.Prime p) (a : ℤ) (ha : (a : ZMod p) ≠ 0) :
    mpz_invert a p = some ((((a : ZMod p)⁻¹).val : ℕ) : ℤ) := by
  haveI : Fact (Nat.Prime p) := ⟨hp⟩
  haveI : NeZero p := ⟨hp.ne_zero⟩
  have hpred : ∀ t : ℕ, ((a * (t : ℤ)) % (p : ℤ) = 1 % (p : ℤ)) ↔ ((t : ZMod p) = (a : ZMod p)⁻¹) := by
    intro t
    constructor
    · intro h
      have h2 : ((a * (t : ℤ) : ℤ) : ZMod p) = ((1 : ℤ) : ZMod p) :=
        (ZMod.intCast_eq_intCast_iff' _ _ _).mpr h
      push_cast at h2
      have h3 : (t : ZMod p) = (a : ZMod p)⁻¹ * ((a : ZMod p) * (t : ZMod p)) := by
        rw [← mul_assoc, inv_mul_cancel₀ ha, one_mul]
      rw [h3, h2, mul_one]
    · intro h
      have h2 : ((a * (t : ℤ) : ℤ) : ZMod p) = ((1 : ℤ) : ZMod p) := by
        push_cast
        rw [h, mul_inv_cancel₀ ha]
      exact (ZMod.intCast_eq_intCast_iff' _ _ _).mp h2
  have hval : ((a : ZMod p)⁻¹).val < p := ZMod.val_lt _
  have hmem : ((a : ZMod p)⁻¹).val ∈ List.range p := List.mem_range.mpr hval
  have hpu : (a * ((((a : ZMod p)⁻¹).val : ℕ) : ℤ)) % (p : ℤ) = 1 % (p : ℤ) :=
    (hpred _).mpr (ZMod.natCast_rightInverse _)
  have hfind : (List.range p).find?
      (fun t : ℕ => decide ((a * (t : ℤ)) % (p : ℤ) = 1 % (p : ℤ)))
        = some (((a : ZMod p)⁻¹).val) := by
    cases hf : (List.range p).find?
        (fun t : ℕ => decide ((a * (t : ℤ)) % (p : ℤ) = 1 % (p : ℤ))) with
    | none =>
        exact absurd (decide_eq_true hpu) (by simpa using List.find?_eq_none.mp hf _ hmem)
    | some t =>
        have ht1 : t < p := List.mem_range.mp (List.mem_of_find?_eq_some hf)
        have ht2 := List.find?_some hf
        have ht3 : (a * (t : ℤ)) % (p : ℤ) = 1 % (p : ℤ) := of_decide_eq_true ht2
        rw [← ZMod.val_cast_of_lt ht1, (hpred t).mp ht3]
  unfold mpz_invert
  rw [hfind]
  rfl

/-- The code's observed value of the destination after a successful invert. -/
lemma invert_or_keep_eq (p : ℕ) (hp : Nat.Prime p) (a : ℤ) (ha : (a : ZMod p) ≠ 0) :
    invert_or_keep a p = ((((a : ZMod p)⁻¹).val : ℕ) : ℤ) := by
  unfold invert_or_keep
  rw [mpz_invert_eq_some p hp a ha]
  rfl

/-- The successful invert destination is in the canonical range `[0, p)`. -/
lemma invert_or_keep_range (p : ℕ) (hp : Nat.Prime p) (a : ℤ) (ha : (a : ZMod p) ≠ 0) :
    0 ≤ invert_or_keep a p ∧ invert_or_keep a p < (p : ℤ) := by
  haveI : NeZero p := ⟨hp.ne_zero⟩
  rw [invert_or_keep_eq p hp a ha]
  exact ⟨Int.natCast_nonneg _, by exact_mod_cast ZMod.val_lt _⟩

/-- Cast of the successful invert destination back into the field. -/
lemma cast_invert_or_keep (p : ℕ) (hp : Nat.Prime p) (a : ℤ) (ha : (a : ZMod p) ≠ 0) :
    ((invert_or_keep a p : ℤ) : ZMod p) = (a : ZMod p)⁻¹ := by
  haveI : NeZero p := ⟨hp.ne_zero⟩
  rw [invert_or_keep_eq p hp a ha]
  push_cast
  exact ZMod.natCast_rightInverse _

/-- Indexing into a mapped `List.range`. -/
lemma getD_map_range (f : ℕ → ℤ) {i k : ℕ} (h : i < k) :
    ((List.range k).map f).getD i 0 = f i := by
  rw [List.getD_eq_getElem?_getD]
  simp [List.getElem?_range, h]

/-- Closed form of one entry of `compute_lagrange_coefficients`: the plain
(unreduced) integer product of the invert destinations. -/
lemma compute_lagrange_getD (xs : List ℤ) (k p i : ℕ) (h : i < k) :
    (compute_lagrange_coefficients xs k p).getD i 0
      = ∏ j ∈ (Finset.range k).erase i, invert_or_keep (xs.getD j 0 - xs.getD i 0) p := by
  unfold compute_lagrange_coefficients
  rw [getD_map_range _ h, foldl_mul_skip_eq_prod]

/-- The image of a computed share in the field `ZMod p`. -/
lemma cast_compute_shares (p : ℕ) (x : ℤ) (a : List ℤ) (k : ℕ) :
    ((compute_shares x a k : ℤ) : ZMod p)
      = ∑ j ∈ Finset.range k, ((a.getD j 0 : ℤ) : ZMod p) * ((x : ℤ) : ZMod p) ^ j := by
  unfold compute_shares
  rw [foldl_add_eq_sum]
  push_cast
  rfl

/-- The image of a computed Lagrange coefficient in the field `ZMod p`, when
the x-values are pairwise distinct modulo the prime `p`. -/
lemma cast_lagrange_coeff (p : ℕ) (hp : Nat.Prime p) (xs : List ℤ) (k i : ℕ) (hi : i < k)
    (hd : ∀ j, j < k → j ≠ i → ((xs.getD j 0 : ℤ) : ZMod p) ≠ ((xs.getD i 0 : ℤ) : ZMod p)) :
    (((compute_lagrange_coefficients xs k p).getD i 0 : ℤ) : ZMod p)
      = ∏ j ∈ (Finset.range k).erase i,
          (((xs.getD j 0 : ℤ) : ZMod p) - ((xs.getD i 0 : ℤ) : ZMod p))⁻¹ := by
  rw [compute_lagrange_getD xs k p i hi]
  push_cast
  refine Finset.prod_congr rfl (fun j hj => ?_)
  rcases Finset.mem_erase.mp hj with ⟨hji, hjk⟩
  have hsub : ((xs.getD j 0 - xs.getD i 0 : ℤ) : ZMod p) ≠ 0 := by
    push_cast
    exact sub_ne_zero_of_ne (hd j (Finset.mem_range.mp hjk) hji)
  rw [cast_invert_or_keep p hp _ hsub]
  push_cast
  rfl

/-- Evaluation of the polynomial over `ZMod p` whose coefficient of `X^j` is
the image of the j-th entry of the C++ coefficient array, for `j < k`. This is
the mathematical object that `compute_shares` evaluates (modulo `p`). -/
lemma eval_polyOf (p : ℕ) (a : List ℤ) (k : ℕ) (z : ZMod p) :
    (∑ j ∈ Finset.range k, Polynomial.C ((a.getD j 0 : ℤ) : ZMod p) * Polynomial.X ^ j).eval z
      = ∑ j ∈ Finset.range k, ((a.getD j 0 : ℤ) : ZMod p) * z ^ j := by
  rw [Polynomial.eval_finset_sum]
  simp

lemma coeff_polyOf (p : ℕ) (a : List ℤ) (k : ℕ) (hk : 0 < k) :
    (∑ j ∈ Finset.range k,
        Polynomial.C ((a.getD j 0 : ℤ) : ZMod p) * Polynomial.X ^ j).coeff (k - 1)
      = ((a.getD (k - 1) 0 : ℤ) : ZMod p) := by
  rw [Polynomial.finset_sum_coeff]
  have h1 : ∀ j ∈ Finset.range k,
      (Polynomial.C ((a.getD j 0 : ℤ) : ZMod p) * Polynomial.X ^ j).coeff (k - 1)
        = if k - 1 = j then ((a.getD j 0 : ℤ) : ZMod p) else 0 := by
    intro j hj
    rw [Polynomial.coeff_C_mul, Polynomial.coeff_X_pow]
    by_cases h : k - 1 = j <;> simp [h]
  rw [Finset.sum_congr rfl h1, Finset.sum_ite_eq]
  simp [Nat.sub_lt hk]

lemma degree_polyOf_lt (p : ℕ) (a : List ℤ) (k : ℕ) :
    (∑ j ∈ Finset.range k,
        Polynomial.C ((a.getD j 0 : ℤ) : ZMod p) * Polynomial.X ^ j).degree
      < (k : WithBot ℕ) := by
  refine lt_of_le_of_lt (Polynomial.degree_sum_le _ _) ?_
  refine (Finset.sup_lt_iff (WithBot.bot_lt_coe k)).mpr ?_
  intro j hj
  refine lt_of_le_of_lt (Polynomial.degree_C_mul_X_pow_le j _) ?_
  exact WithBot.coe_lt_coe.mpr (Finset.mem_range.mp hj)

/-- The leading coefficient of a Lagrange basis polynomial is the nodal weight
(the product of the inverses of the node differences). -/
lemma leadingCoeff_lagrange_basis {F : Type} [Field F] (s : Finset ℕ) (v : ℕ → F) (i : ℕ) :
    (Lagrange.basis s v i).leadingCoeff = Lagrange.nodalWeight s v i := by
  have hb : Lagrange.basis s v i = ∏ j ∈ s.erase i, Lagrange.basisDivisor (v i) (v j) := rfl
  have hw : Lagrange.nodalWeight s v i = ∏ j ∈ s.erase i, (v i - v j)⁻¹ := rfl
  rw [hb, hw, Polynomial.leadingCoeff_prod]
  refine Finset.prod_congr rfl (fun j hj => ?_)
  have hbd : Lagrange.basisDivisor (v i) (v j)
      = Polynomial.C (v i - v j)⁻¹ * (Polynomial.X - Polynomial.C (v j)) := rfl
  rw [hbd, Polynomial.leadingCoeff_mul_monic (Polynomial.monic_X_sub_C (v j)),
    Polynomial.leadingCoeff_C]

/-- Divided-difference identity: for a polynomial of degree below `k` and `k`
distinct nodes, the sum of the values at the nodes weighted by the nodal
weights is the coefficient of `X^(k-1)`. -/
lemma coeff_eq_sum_eval_mul_nodalWeight {F : Type} [Field F] (k : ℕ)
    (v : ℕ → F) (hvs : Set.InjOn v (Finset.range k : Finset ℕ)) (f : Polynomial F)
    (hf : f.degree < (k : WithBot ℕ)) :
    f.coeff (k - 1)
      = ∑ i ∈ Finset.range k, f.eval (v i) * Lagrange.nodalWeight (Finset.range k) v i := by
  have h1 : f = Lagrange.interpolate (Finset.range k) v (fun i => f.eval (v i)) :=
    Lagrange.eq_interpolate hvs (by rw [Finset.card_range]; exact hf)
  conv_lhs => rw [h1]
  rw [Lagrange.interpolate_apply, Polynomial.finset_sum_coeff]
  refine Finset.sum_congr rfl (fun i hi => ?_)
  rw [Polynomial.coeff_C_mul]
  congr 1
  have hdeg : (Lagrange.basis (Finset.range k) v i).natDegree = k - 1 := by
    rw [Lagrange.natDegree_basis hvs hi, Finset.card_range]
  rw [← hdeg, Polynomial.coeff_natDegree, leadingCoeff_lagrange_basis]

/-- The sign-flipped product computed by the C++ code, in terms of the nodal
weight: the code inverts `x_j - x_i` where the Lagrange weight uses
`x_i - x_j`, which contributes a factor `(-1)^(k-1)`. -/
lemma prod_flip {F : Type} [Field F] (k i : ℕ) (hi : i ∈ Finset.range k) (v : ℕ → F) :
    ∏ j ∈ (Finset.range k).erase i, (v j - v i)⁻¹
      = (-1 : F) ^ (k - 1) * Lagrange.nodalWeight (Finset.range k) v i := by
  have hcard : ((Finset.range k).erase i).card = k - 1 := by
    rw [Finset.card_erase_of_mem hi, Finset.card_range]
  have h1 : ∀ j ∈ (Finset.range k).erase i, (v j - v i)⁻¹ = (-1) * (v i - v j)⁻¹ := by
    intro j hj
    rw [← neg_sub (v i) (v j), inv_neg, neg_eq_neg_one_mul]
  have hw : Lagrange.nodalWeight (Finset.range k) v i
      = ∏ j ∈ (Finset.range k).erase i, (v i - v j)⁻¹ := rfl
  rw [Finset.prod_congr rfl h1, Finset.prod_mul_distrib, Finset.prod_const, hcard, hw]

/-- Core behavior of the reconstruction path on shares of the polynomial with
coefficient list `a`: for `k` x-values pairwise distinct modulo the prime `p`,
the pipeline returns the canonical representative of `(-1)^(k-1)` times the
LAST coefficient `a[k-1]` (a divided-difference identity: the code's alphas
are the leading-coefficient weights up to sign, not the Lagrange weights at
zero). -/
theorem reconstruct_pipeline_eq (p k : ℕ) (hp : Nat.Prime p) (hk : 0 < k)
    (a xs ys : List ℤ)
    (hd : ∀ i, i < k → ∀ j, j < k → i ≠ j →
      xs.getD i 0 % (p : ℤ) ≠ xs.getD j 0 % (p : ℤ))
    (hys : ∀ i, i < k → ys.getD i 0 = compute_shares (xs.getD i 0) a k) :
    reconstruct_pipeline xs ys k p
      = ((((-1 : ZMod p) ^ (k - 1) * ((a.getD (k - 1) 0 : ℤ) : ZMod p)).val : ℕ) : ℤ) := by
  haveI : Fact (Nat.Prime p) := ⟨hp⟩
  haveI : NeZero p := ⟨hp.ne_zero⟩
  have hdz : ∀ i, i < k → ∀ j, j < k → i ≠ j →
      ((xs.getD i 0 : ℤ) : ZMod p) ≠ ((xs.getD j 0 : ℤ) : ZMod p) := by
    intro i hi j hj hij hc
    exact hd i hi j hj hij ((ZMod.intCast_eq_intCast_iff' _ _ _).mp hc)
  have hvs : Set.InjOn (fun t : ℕ => ((xs.getD t 0 : ℤ) : ZMod p))
      (Finset.range k : Finset ℕ) := by
    intro i hi j hj hc
    by_contra hij
    exact hdz i (Finset.mem_range.mp (Finset.mem_coe.mp hi)) j
      (Finset.mem_range.mp (Finset.mem_coe.mp hj)) hij hc
  have hzmod : ((∑ i ∈ Finset.range k,
        (compute_lagrange_coefficients xs k p).getD i 0 * ys.getD i 0 : ℤ) : ZMod p)
      = (-1 : ZMod p) ^ (k - 1) * ((a.getD (k - 1) 0 : ℤ) : ZMod p) := by
    push_cast
    have hterm : ∀ i ∈ Finset.range k,
        (((compute_lagrange_coefficients xs k p).getD i 0 : ℤ) : ZMod p)
            * ((ys.getD i 0 : ℤ) : ZMod p)
          = (-1 : ZMod p) ^ (k - 1)
              * ((∑ j ∈ Finset.range k, Polynomial.C ((a.getD j 0 : ℤ) : ZMod p)
                    * Polynomial.X ^ j).eval ((xs.getD i 0 : ℤ) : ZMod p)
                * Lagrange.nodalWeight (Finset.range k)
                    (fun t : ℕ => ((xs.getD t 0 : ℤ) : ZMod p)) i) := by
      intro i hi
      have hik := Finset.mem_range.mp hi
      have hpf : ∏ j ∈ (Finset.range k).erase i,
          (((xs.getD j 0 : ℤ) : ZMod p) - ((xs.getD i 0 : ℤ) : ZMod p))⁻¹
            = (-1 : ZMod p) ^ (k - 1)
              * Lagrange.nodalWeight (Finset.range k)
                  (fun t : ℕ => ((xs.getD t 0 : ℤ) : ZMod p)) i :=
        prod_flip k i hi _
      rw [cast_lagrange_coeff p hp xs k i hik (fun j hj hji => hdz j hj i hik hji),
        hys i hik, cast_compute_shares p _ a k, ← eval_polyOf, hpf]
      ring
    have hcore : (∑ j ∈ Finset.range k,
          Polynomial.C ((a.getD j 0 : ℤ) : ZMod p) * Polynomial.X ^ j).coeff (k - 1)
        = ∑ i ∈ Finset.range k,
            (∑ j ∈ Finset.range k,
                Polynomial.C ((a.getD j 0 : ℤ) : ZMod p) * Polynomial.X ^ j).eval
                  ((xs.getD i 0 : ℤ) : ZMod p)
              * Lagrange.nodalWeight (Finset.range k)
                  (fun t : ℕ => ((xs.getD t 0 : ℤ) : ZMod p)) i :=
      coeff_eq_sum_eval_mul_nodalWeight k _ hvs _ (degree_polyOf_lt p a k)
    rw [Finset.sum_congr rfl hterm, ← Finset.mul_sum, ← hcore, coeff_polyOf p a k hk]
  unfold reconstruct_pipeline reconstruct_secret
  have hfold : (List.range k).foldl
      (fun acc i => acc + (compute_lagrange_coefficients xs k p).getD i 0 * ys.getD i 0) 0
        = ∑ i ∈ Finset.range k, (compute_lagrange_coefficients xs k p).getD i 0 * ys.getD i 0 :=
    foldl_add_eq_sum _ k
  rw [hfold, ← ZMod.val_intCast (n := p), hzmod]

/-- The builder stores the secret at index `k - 1`, the LAST (highest-degree)
coefficient. -/
lemma getD_last_generate_coefficients (rs : List ℤ) (S : ℤ) (k p : ℕ) (hk : 0 < k) :
    (generate_coefficients rs S k p).getD (k - 1) 0 = S := by
  unfold generate_coefficients
  have hlen : ((List.range (k - 1)).map (fun i => rs.getD i 0 % (p : ℤ))).length = k - 1 := by
    simp
  rw [List.getD_append_right _ _ _ _ (le_of_eq hlen), hlen, Nat.sub_self]
  rfl

/-- Congruence form of the pipeline identity: the reconstructed value is
congruent to `(-1)^(k-1)` times the last coefficient, modulo `p`. -/
lemma reconstruct_pipeline_modeq (p k : ℕ) (hp : Nat.Prime p) (hk : 0 < k)
    (a xs ys : List ℤ)
    (hd : ∀ i, i < k → ∀ j, j < k → i ≠ j →
      xs.getD i 0 % (p : ℤ) ≠ xs.getD j 0 % (p : ℤ))
    (hys : ∀ i, i < k → ys.getD i 0 = compute_shares (xs.getD i 0) a k) :
    reconstruct_pipeline xs ys k p ≡ (-1 : ℤ) ^ (k - 1) * a.getD (k - 1) 0 [ZMOD (p : ℤ)] := by
  haveI : NeZero p := ⟨hp.ne_zero⟩
  rw [reconstruct_pipeline_eq p k hp hk a xs ys hd hys]
  have hc : ((((((-1 : ZMod p) ^ (k - 1) * ((a.getD (k - 1) 0 : ℤ) : ZMod p)).val : ℕ) : ℤ))
        : ZMod p)
      = (((-1 : ℤ) ^ (k - 1) * a.getD (k - 1) 0 : ℤ) : ZMod p) := by
    push_cast
    exact ZMod.natCast_rightInverse _
  exact (ZMod.intCast_eq_intCast_iff _ _ _).mp hc

/-- Evaluating the share polynomial at `x = 0` returns the FIRST coefficient
`a[0]` (the code's evaluation treats `a[j]` as the coefficient of `x^j`, and
GMP defines `0^0 = 1`). -/
lemma compute_shares_zero (a : List ℤ) (k : ℕ) (hk : 0 < k) :
    compute_shares 0 a k = a.getD 0 0 := by
  unfold compute_shares
  rw [foldl_add_eq_sum (fun j => a.getD j 0 * (0 : ℤ) ^ j) k]
  rw [Finset.sum_eq_single 0]
  · simp
  · intro j hj hj0
    rw [zero_pow hj0, mul_zero]
  · intro h
    exact absurd (Finset.mem_range.mpr hk) h

/-- C1, counterexample: with prime `p = 5`, threshold `k = 2`, participant
count `n = 2`, secret `S = 1` and the builder polynomial `[0, 1]` (random
coefficient drawn `0`, secret stored last), the two generated shares at the
distinct nonzero x-coordinates `1, 2` are `(1,1)` and `(2,2)`, yet running
`compute_lagrange_coefficients` followed by `reconstruct_secret` on them
returns `4 = p - S`, not the secret `1`: the claimed round trip fails for
even `k`. -/
theorem C1_counterexample :
    generate_coefficients [0] 1 2 5 = [0, 1]
      ∧ compute_shares 1 [0, 1] 2 = 1 ∧ compute_shares 2 [0, 1] 2 = 2
      ∧ reconstruct_pipeline [1, 2] [1, 2] 2 5 = 4
      ∧ reconstruct_pipeline [1, 2] [1, 2] 2 5 ≠ 1 := by
  decide

/-- C1 (amended): for every prime `p`, ODD threshold `k ≥ 1`, secret `S` with
`0 ≤ S < p`, polynomial built by the builder from `S`, and every choice of `k`
shares of that polynomial whose x-coordinates are pairwise distinct modulo
`p`, running `compute_lagrange_coefficients` on the x-values followed by
`reconstruct_secret` on the resulting alphas and the y-values returns exactly
`S`. (For even `k` the pipeline returns `(p - S) mod p` instead, as the
counterexample shows; the repository demo uses `k = 3`, which is odd.) -/
theorem C1_round_trip_odd_k (p k : ℕ) (hp : Nat.Prime p) (hk : 0 < k)
    (hodd : k % 2 = 1) (rs : List ℤ) (S : ℤ) (hS0 : 0 ≤ S) (hSp : S < (p : ℤ))
    (xs ys : List ℤ)
    (hd : ∀ i, i < k → ∀ j, j < k → i ≠ j →
      xs.getD i 0 % (p : ℤ) ≠ xs.getD j 0 % (p : ℤ))
    (hys : ∀ i, i < k → ys.getD i 0
      = compute_shares (xs.getD i 0) (generate_coefficients rs S k p) k) :
    reconstruct_pipeline xs ys k p = S := by
  haveI : NeZero p := ⟨hp.ne_zero⟩
  rw [reconstruct_pipeline_eq p k hp hk (generate_coefficients rs S k p) xs ys hd hys,
    getD_last_generate_coefficients rs S k p hk]
  have heven : Even (k - 1) := Nat.even_iff.mpr (by omega)
  rw [heven.neg_one_pow, one_mul, ZMod.val_intCast, Int.emod_eq_of_lt hS0 hSp]

/-- Witness for C1 (amended) at `p = 17`, `k = 3`, builder draws `[3, 2]`,
secret `5` (polynomial `[3, 2, 5]`), shares `(1,10), (2,27), (3,54)`. -/
theorem C1_round_trip_odd_k_witness :
    reconstruct_pipeline [1, 2, 3] [10, 27, 54] 3 17 = 5 :=
  C1_round_trip_odd_k 17 3 (by norm_num) (by norm_num) (by norm_num)
    [3, 2] 5 (by norm_num) (by norm_num) [1, 2, 3] [10, 27, 54] (by decide) (by decide)

/-- C2, counterexample: with `p = 5`, `k = 2`, secret `S = 2` and builder draw
`[1]`, the built coefficient list is `[1, 2]` and evaluating the share
polynomial at `x = 0` yields `1` (the FIRST coefficient), not the secret `2`:
`P(0) = S` fails for the code's polynomial layout. -/
theorem C2_counterexample :
    generate_coefficients [1] 2 2 5 = [1, 2]
      ∧ compute_shares 0 [1, 2] 2 = 1
      ∧ compute_shares 0 [1, 2] 2 ≠ 2 := by
  decide

/-- C2 (amended): for every polynomial built by the builder (secret `S` stored
as the LAST coefficient `a[k-1]`), evaluating it by the share evaluator's rule
at `x = 0` yields the FIRST coefficient `a[0]` (not `S` in general), and for
any `k` shares on that polynomial with x-coordinates pairwise distinct modulo
the prime `p`, the computed Lagrange coefficients satisfy
`Σ α_i · y_i ≡ (-1)^(k-1) · S (mod p)` — the leading coefficient up to sign,
not `P(0)`. -/
theorem C2_eval_zero_and_lagrange_sum (p k : ℕ) (hp : Nat.Prime p) (hk : 0 < k)
    (rs : List ℤ) (S : ℤ) (xs ys : List ℤ)
    (hd : ∀ i, i < k → ∀ j, j < k → i ≠ j →
      xs.getD i 0 % (p : ℤ) ≠ xs.getD j 0 % (p : ℤ))
    (hys : ∀ i, i < k → ys.getD i 0
      = compute_shares (xs.getD i 0) (generate_coefficients rs S k p) k) :
    compute_shares 0 (generate_coefficients rs S k p) k
        = (generate_coefficients rs S k p).getD 0 0
      ∧ reconstruct_pipeline xs ys k p ≡ (-1 : ℤ) ^ (k - 1) * S [ZMOD (p : ℤ)] := by
  refine ⟨compute_shares_zero _ k hk, ?_⟩
  have h := reconstruct_pipeline_modeq p k hp hk (generate_coefficients rs S k p) xs ys hd hys
  rwa [getD_last_generate_coefficients rs S k p hk] at h

/-- Witness for C2 (amended) at `p = 5`, `k = 2`, builder draw `[1]`, secret
`2` (polynomial `[1, 2]`), shares `(1,3), (2,5)`. -/
theorem C2_eval_zero_and_lagrange_sum_witness :
    compute_shares 0 (generate_coefficients [1] 2 2 5) 2
        = (generate_coefficients [1] 2 2 5).getD 0 0
      ∧ reconstruct_pipeline [1, 2] [3, 5] 2 5 ≡ (-1 : ℤ) ^ (2 - 1) * 2 [ZMOD (5 : ℤ)] :=
  C2_eval_zero_and_lagrange_sum 5 2 (by norm_num) (by norm_num) [1] 2 [1, 2] [3, 5]
    (by decide) (by decide)

/-- C3, counterexample: with `p = 5`, `k = 3` and x-values `1, 2, 3`, the
computed alphas are `[3, 4, 8]`; the entry at index `2` is `8`, which is not
in the range `[0, 5)` (it is only congruent to the claimed field element `3`
modulo `5`): the running product is never reduced. -/
theorem C3_counterexample :
    compute_lagrange_coefficients [1, 2, 3] 3 5 = [3, 4, 8]
      ∧ ¬ ((compute_lagrange_coefficients [1, 2, 3] 3 5).getD 2 0 < (5 : ℤ))
      ∧ (8 : ℤ) % 5 = 3 := by
  decide

/-- C3 (amended): for every prime `p`, every `k`, every sequence of x-values
pairwise distinct modulo `p`, and every index `i < k`,
`compute_lagrange_coefficients` returns at index `i` the PLAIN integer product
over `j ≠ i` of the modular inverses of `(x_j - x_i)`; each individual inverse
factor lies in `[0, p)` and multiplies with `(x_j - x_i)` to `1 (mod p)`, but
the product itself is not reduced into `[0, p)`. -/
theorem C3_alpha_product (p k i : ℕ) (hp : Nat.Prime p) (hi : i < k) (xs : List ℤ)
    (hd : ∀ i2, i2 < k → ∀ j, j < k → i2 ≠ j →
      xs.getD i2 0 % (p : ℤ) ≠ xs.getD j 0 % (p : ℤ)) :
    (compute_lagrange_coefficients xs k p).getD i 0
        = ∏ j ∈ (Finset.range k).erase i, invert_or_keep (xs.getD j 0 - xs.getD i 0) p
      ∧ ∀ j, j < k → j ≠ i →
          0 ≤ invert_or_keep (xs.getD j 0 - xs.getD i 0) p
            ∧ invert_or_keep (xs.getD j 0 - xs.getD i 0) p < (p : ℤ)
            ∧ (xs.getD j 0 - xs.getD i 0) * invert_or_keep (xs.getD j 0 - xs.getD i 0) p
                % (p : ℤ) = 1 % (p : ℤ) := by
  refine ⟨compute_lagrange_getD xs k p i hi, ?_⟩
  intro j hj hji
  have hsub : ((xs.getD j 0 - xs.getD i 0 : ℤ) : ZMod p) ≠ 0 := by
    have hne := hd j hj i hi hji
    push_cast
    exact sub_ne_zero_of_ne (fun hc => hne ((ZMod.intCast_eq_intCast_iff' _ _ _).mp hc))
  rcases invert_or_keep_range p hp _ hsub with ⟨h0, h1⟩
  refine ⟨h0, h1, ?_⟩
  haveI : Fact (Nat.Prime p) := ⟨hp⟩
  haveI : NeZero p := ⟨hp.ne_zero⟩
  have hinv : (((xs.getD j 0 - xs.getD i 0)
        * invert_or_keep (xs.getD j 0 - xs.getD i 0) p : ℤ) : ZMod p)
      = ((1 : ℤ) : ZMod p) := by
    rw [Int.cast_mul, cast_invert_or_keep p hp _ hsub, mul_inv_cancel₀ hsub, Int.cast_one]
  exact (ZMod.intCast_eq_intCast_iff' _ _ _).mp hinv

/-- Witness for C3 (amended) at `p = 5`, `k = 3`, `i = 2`, x-values `1, 2, 3`. -/
theorem C3_alpha_product_witness :
    (compute_lagrange_coefficients [1, 2, 3] 3 5).getD 2 0
        = ∏ j ∈ (Finset.range 3).erase 2,
            invert_or_keep ([(1 : ℤ), 2, 3].getD j 0 - [(1 : ℤ), 2, 3].getD 2 0) 5
      ∧ ∀ j, j < 3 → j ≠ 2 →
          0 ≤ invert_or_keep ([(1 : ℤ), 2, 3].getD j 0 - [(1 : ℤ), 2, 3].getD 2 0) 5
            ∧ invert_or_keep ([(1 : ℤ), 2, 3].getD j 0 - [(1 : ℤ), 2, 3].getD 2 0) 5 < (5 : ℤ)
            ∧ ([(1 : ℤ), 2, 3].getD j 0 - [(1 : ℤ), 2, 3].getD 2 0)
                * invert_or_keep ([(1 : ℤ), 2, 3].getD j 0 - [(1 : ℤ), 2, 3].getD 2 0) 5
                % (5 : ℤ) = 1 % (5 : ℤ) :=
  C3_alpha_product 5 3 2 (by norm_num) (by norm_num) [1, 2, 3] (by decide)

/-- C4, counterexample: at `x = 2`, coefficients `[3, 2, 5]`, `p = 17`, the
code returns the unreduced value `27`, whereas the sum reduced modulo `17`
is `10`. -/
theorem C4_counterexample :
    compute_shares 2 [3, 2, 5] 3 = 27
      ∧ (3 * 2 ^ 0 + 2 * 2 ^ 1 + 5 * 2 ^ 2 : ℤ) % 17 = 10
      ∧ compute_shares 2 [3, 2, 5] 3 ≠ (3 * 2 ^ 0 + 2 * 2 ^ 1 + 5 * 2 ^ 2 : ℤ) % 17 := by
  decide

/-- C4 (amended): for every `x` and coefficient sequence `a[0..k-1]`, the share
value returned by `compute_shares` equals the sum over `j` of `a[j] * x^j`
WITHOUT the final reduction modulo `p` (the function never touches `p`; the
value is only congruent to the reduced one). -/
theorem C4_share_value (x : ℤ) (a : List ℤ) (k : ℕ) :
    compute_shares x a k = ∑ j ∈ Finset.range k, a.getD j 0 * x ^ j := by
  unfold compute_shares
  exact foldl_add_eq_sum _ k

/-- C5, counterexample: in the concrete scenario `p = 17`, coefficients
`[3, 2, 5]`, the share evaluator returns `27` at `x = 2` (not the claimed
`10`), and the reconstruction pipeline applied to the spec's claimed triple
`(1,10), (2,10), (3,5)` returns `6`, not `5`. -/
theorem C5_counterexample :
    compute_shares 2 [3, 2, 5] 3 ≠ 10
      ∧ reconstruct_pipeline [1, 2, 3] [10, 10, 5] 3 17 ≠ 5
      ∧ compute_shares 2 [3, 2, 5] 3 = 27
      ∧ reconstruct_pipeline [1, 2, 3] [10, 10, 5] 3 17 = 6 := by
  decide

/-- C5 (amended): in the concrete scenario `p = 17`, `k = 3`, builder
coefficients `[3, 2, 5]` (secret `5` last), participants `x = 1, 2, 3, 4`, the
share evaluator returns the UNREDUCED values `y = 10, 27, 54, 91`, and the
reconstruction pipeline applied to the actual first three shares
`(1,10), (2,27), (3,54)` returns the secret `5`. -/
theorem C5_concrete_scenario :
    generate_coefficients [3, 2] 5 3 17 = [3, 2, 5]
      ∧ compute_shares 1 [3, 2, 5] 3 = 10
      ∧ compute_shares 2 [3, 2, 5] 3 = 27
      ∧ compute_shares 3 [3, 2, 5] 3 = 54
      ∧ compute_shares 4 [3, 2, 5] 3 = 91
      ∧ reconstruct_pipeline [1, 2, 3] [10, 27, 54] 3 17 = 5 := by
  decide

/-- C6: with the duplicated x-coordinates `1, 1` (at `p = 17`, `k = 2`) the
required modular inverse of `0` does not exist, and the modelled `mpz_invert`
reports failure; but the C++ code discards that status flag, leaves the
destination operand (holding `x_j - x_i = 0`) in place, and the reconstruction
path runs to completion returning the NUMERIC value `0` — no error of any kind
is signalled (the functions return `void` and the repository defines no error
type), contradicting the claimed `NonInvertibleElementError` or
`DuplicateOrZeroIdentifierError`. -/
theorem C6_duplicate_returns_numeric :
    mpz_invert 0 17 = none
      ∧ compute_lagrange_coefficients [1, 1] 2 17 = [0, 0]
      ∧ reconstruct_pipeline [1, 1] [5, 5] 2 17 = 0 := by
  decide

/-- C7, counterexample: the share at `x = 2` for coefficients `[3, 2, 5]` is
`27`, which violates the claimed invariant `y < p` for `p = 17`. -/
theorem C7_counterexample :
    compute_shares 2 [3, 2, 5] 3 = 27
      ∧ ¬ (compute_shares 2 [3, 2, 5] 3 < (17 : ℤ)) := by
  decide

/-- C7 (amended): the sampled secret satisfies `0 ≤ secret < p` (the
`mpz_urandomm` contract), and every share value is non-negative (for the
non-negative inputs the program uses), but a share need NOT be below `p`:
`compute_shares` performs no reduction. -/
theorem C7_range_invariants (r : ℤ) (p : ℕ) (hp : 0 < p) (x : ℤ) (a : List ℤ) (k : ℕ)
    (hx : 0 ≤ x) (ha : ∀ j, j < k → 0 ≤ a.getD j 0) :
    (0 ≤ generate_secret r p ∧ generate_secret r p < (p : ℤ))
      ∧ 0 ≤ compute_shares x a k := by
  refine ⟨⟨Int.emod_nonneg r (by exact_mod_cast hp.ne'),
    Int.emod_lt_of_pos r (by exact_mod_cast hp)⟩, ?_⟩
  have h : compute_shares x a k = ∑ j ∈ Finset.range k, a.getD j 0 * x ^ j := by
    unfold compute_shares
    exact foldl_add_eq_sum _ k
  rw [h]
  refine Finset.sum_nonneg (fun j hj => ?_)
  exact mul_nonneg (ha j (Finset.mem_range.mp hj)) (pow_nonneg hx j)

/-- Witness for C7 (amended) with raw draw `23`, `p = 17`, share at `x = 2`
for coefficients `[3, 2, 5]`. -/
theorem C7_range_invariants_witness :
    (0 ≤ generate_secret 23 17 ∧ generate_secret 23 17 < (17 : ℤ))
      ∧ 0 ≤ compute_shares 2 [3, 2, 5] 3 :=
  C7_range_invariants 23 17 (by norm_num) 2 [3, 2, 5] 3 (by norm_num) (by decide)

/-- C8: for every polynomial (coefficient list `a`, threshold `k`) and every
two sets of `k` shares of that polynomial, each with x-coordinates pairwise
distinct modulo the prime `p`, the reconstruction pipeline returns the
identical value on both: both equal the canonical representative of
`(-1)^(k-1) · a[k-1]` modulo `p`. -/
theorem C8_subset_invariance (p k : ℕ) (hp : Nat.Prime p) (hk : 0 < k)
    (a xs1 ys1 xs2 ys2 : List ℤ)
    (hd1 : ∀ i, i < k → ∀ j, j < k → i ≠ j →
      xs1.getD i 0 % (p : ℤ) ≠ xs1.getD j 0 % (p : ℤ))
    (hys1 : ∀ i, i < k → ys1.getD i 0 = compute_shares (xs1.getD i 0) a k)
    (hd2 : ∀ i, i < k → ∀ j, j < k → i ≠ j →
      xs2.getD i 0 % (p : ℤ) ≠ xs2.getD j 0 % (p : ℤ))
    (hys2 : ∀ i, i < k → ys2.getD i 0 = compute_shares (xs2.getD i 0) a k) :
    reconstruct_pipeline xs1 ys1 k p = reconstruct_pipeline xs2 ys2 k p := by
  rw [reconstruct_pipeline_eq p k hp hk a xs1 ys1 hd1 hys1,
    reconstruct_pipeline_eq p k hp hk a xs2 ys2 hd2 hys2]

/-- Witness for C8 at `p = 17`, `k = 3`, polynomial `[3, 2, 5]`, subsets
`{(1,10), (2,27), (3,54)}` and `{(2,27), (3,54), (4,91)}`. -/
theorem C8_subset_invariance_witness :
    reconstruct_pipeline [1, 2, 3] [10, 27, 54] 3 17
      = reconstruct_pipeline [2, 3, 4] [27, 54, 91] 3 17 :=
  C8_subset_invariance 17 3 (by norm_num) (by norm_num) [3, 2, 5]
    [1, 2, 3] [10, 27, 54] [2, 3, 4] [27, 54, 91]
    (by decide) (by decide) (by decide) (by decide)

/-- C9: for every index `i < k` in range of the output array, the i-th entry
written by the batch `compute_shares` of src/unnamed/part_000 equals the value
computed by the per-participant `compute_shares` of src/main.cpp at the same
x-value: the two polynomial-evaluation loops are extensionally equal. -/
theorem C9_batch_matches_single (xs y0 a : List ℤ) (k i : ℕ) (hik : i < k)
    (hiy : i < y0.length) :
    (compute_shares_batch xs y0 a k).getD i 0 = compute_shares (xs.getD i 0) a k := by
  unfold compute_shares_batch compute_shares
  simp [List.getD_eq_getElem?_getD, List.getElem?_mapIdx, List.getElem?_eq_getElem hiy, hik]

/-- Witness for C9 at the part_000 demo parameters (`x = 2, 4, 6, 8`, `k = 3`,
coefficients `[3, 2, 5]`), index `1`. -/
theorem C9_batch_matches_single_witness :
    (compute_shares_batch [2, 4, 6, 8] [0, 0, 0, 99] [3, 2, 5] 3).getD 1 0
      = compute_shares ([(2 : ℤ), 4, 6, 8].getD 1 0) [3, 2, 5] 3 :=
  C9_batch_matches_single [2, 4, 6, 8] [0, 0, 0, 99] [3, 2, 5] 3 1 (by norm_num) (by decide)

/-- C10: the batch `compute_shares` of src/unnamed/part_000, called with
threshold `k ≤ n` output slots, writes only positions `0 .. k-1`: the output
has the same length as the input array and every position `i` with
`k ≤ i < n` keeps its previous value (so no share is produced for those
participants, even though the caller holds `n` of them). -/
theorem C10_batch_frame (xs y0 a : List ℤ) (k : ℕ) (hk : k ≤ y0.length) :
    (compute_shares_batch xs y0 a k).length = y0.length
      ∧ ∀ i, k ≤ i → i < y0.length →
          (compute_shares_batch xs y0 a k).getD i 0 = y0.getD i 0 := by
  constructor
  · unfold compute_shares_batch
    simp
  · intro i hki hiy
    unfold compute_shares_batch
    simp [List.getD_eq_getElem?_getD, List.getElem?_mapIdx, List.getElem?_eq_getElem hiy,
      Nat.not_lt.mpr hki]

/-- Witness for C10 at the part_000 demo parameters (`n = 4`, `k = 3`): the
fourth output slot keeps its previous value. -/
theorem C10_batch_frame_witness :
    (compute_shares_batch [2, 4, 6, 8] [0, 0, 0, 99] [3, 2, 5] 3).length
        = [(0 : ℤ), 0, 0, 99].length
      ∧ (compute_shares_batch [2, 4, 6, 8] [0, 0, 0, 99] [3, 2, 5] 3).getD 3 0
        = [(0 : ℤ), 0, 0, 99].getD 3 0 :=
  ⟨(C10_batch_frame [2, 4, 6, 8] [0, 0, 0, 99] [3, 2, 5] 3 (by decide)).1,
    (C10_batch_frame [2, 4, 6, 8] [0, 0, 0, 99] [3, 2, 5] 3 (by decide)).2 3
      (by norm_num) (by decide)⟩

end SSS
